import Mathlib

/-!
Shallow embedding of the INDELible simulation-orchestration script
(`src/data/a.py`).  File I/O is abstracted: functions that read files are
modelled on the already-parsed data (`Bio.SeqIO` parsing is an external
library), and functions that write files return the written content.
Sequences are modelled as `List Char`; a Python string is its character
sequence.  Python `set(...)` cardinality is `List.dedup.length`.
-/

namespace ExaML

/-- One step of the column-extraction loop in `read_fasta`/`read_phylip`:
`for i in range(seq_length): columns[i].append(seq[i])`.
`columns` always has exactly `seq_length` entries on the reachable path, and
`seq` has length `seq_length` (checked before the loop), so indexing is
modelled with `getD`. -/
def buildColumnsStep (seq_length : Nat) (columns : List (List Char))
    (seq : List Char) : List (List Char) :=
  (List.range seq_length).map (fun i => columns.getD i [] ++ [seq.getD i ' '])

/-- The column-extraction loop of `read_fasta`/`read_phylip`:
`columns = [[] for _ in range(seq_length)]` then
`for seq in sequences: for i in range(seq_length): columns[i].append(seq[i])`. -/
def buildColumns (seq_length : Nat) (sequences : List (List Char)) :
    List (List Char) :=
  sequences.foldl (buildColumnsStep seq_length) (List.replicate seq_length [])

/-- `read_fasta`, after `SeqIO.parse(fasta_file, "fasta")` has produced the
list of sequence strings.  Returns `(unique site patterns, unique sequences)`;
`(0, 0)` when no sequences were parsed or when lengths are inconsistent. -/
def read_fasta (sequences : List (List Char)) : Nat × Nat :=
  if sequences.length = 0 then (0, 0)
  else
    let seq_length := (sequences.headD []).length
    if sequences.any (fun seq => seq.length != seq_length) then (0, 0)
    else
      let columns := buildColumns seq_length sequences
      let pattern := columns.dedup
      let distinct_seqs := sequences.dedup
      (pattern.length, distinct_seqs.length)

/-- `read_phylip`, after `SeqIO.parse(phylip_file, "phylip")` has produced the
list of sequence strings.  The body is identical to `read_fasta`'s. -/
def read_phylip (sequences : List (List Char)) : Nat × Nat :=
  if sequences.length = 0 then (0, 0)
  else
    let seq_length := (sequences.headD []).length
    if sequences.any (fun seq => seq.length != seq_length) then (0, 0)
    else
      let columns := buildColumns seq_length sequences
      let pattern := columns.dedup
      let distinct_seqs := sequences.dedup
      (pattern.length, distinct_seqs.length)

/-- The spec's description of the Alignment Analyzer success case: transpose
the alignment into columns (column `i` is the ordered tuple of the `i`-th
symbol of every sequence, in input order), and return the number of distinct
column tuples and the number of distinct full sequences. -/
def alignmentAnalyzerSpec (sequences : List (List Char)) : Nat × Nat :=
  let seq_length := (sequences.headD []).length
  let columns := (List.range seq_length).map
    (fun i => sequences.map (fun seq => seq.getD i ' '))
  (columns.dedup.length, sequences.dedup.length)

/-- Result tuple of `generate_control_file`: the three derived filenames and
the per-partition size, exactly as returned by the Python function. -/
structure ControlFileResult where
  control_filename : String
  phylip_filename : String
  partition_filename : String
  partition_sizes : Nat
  deriving Repr, DecidableEq

/-- The lines written to `control.txt` by `generate_control_file`. -/
def controlFileContent (sites taxa partitions : Nat) (output_name : String) :
    List String :=
  [ "/////////////////////////////////////////////////////////////////////////////////////",
    "// INDELible V1.03 control file - Auto-generated for Maximum Uniqueness",
    "// Simulating " ++ toString taxa ++ " taxa, " ++ toString sites
      ++ " sites, " ++ toString partitions ++ " partitions",
    "/////////////////////////////////////////////////////////////////////////////////////",
    "",
    "[TYPE] NUCLEOTIDE 1",
    "",
    "[SETTINGS]",
    "    [output] PHYLIP",
    "    [randomseed] 4321",
    "" ]
  ++ List.flatten ((List.range partitions).map (fun j =>
      [ "[MODEL] Model" ++ toString (j + 1),
        "    [submodel] GTR 10.0 10.0 10.0 10.0 10.0 10.0",
        "    [statefreq] 0.25 0.25 0.25 0.25",
        "    [rates] 0.0 10.0 4",
        "    [insertrate] 0.0",
        "    [deleterate] 0.0",
        "" ]))
  ++ [ "[TREE] SimTree",
       "    [unrooted] " ++ toString taxa ++ " 10.0 2.0 1.0 2.0",
       "    [treelength] 7.0",
       "",
       "[PARTITIONS] AutoPartition" ]
  ++ (List.range partitions).map (fun j =>
       "    [SimTree Model" ++ toString (j + 1) ++ " "
         ++ toString (sites / partitions) ++ "]")
  ++ [ "",
       "[EVOLVE]",
       "    AutoPartition 1 " ++ output_name ]

/-- `generate_control_file(sites, taxa, partitions, output_name)`: computes
`partition_sizes = sites // partitions` and returns the filename tuple.
The file content itself is `controlFileContent`. -/
def generate_control_file (sites taxa partitions : Nat) (output_name : String) :
    ControlFileResult :=
  let partition_sizes := sites / partitions
  { control_filename := "control.txt"
    phylip_filename := output_name ++ "_TRUE.phy"
    partition_filename := output_name ++ "_partitions.txt"
    partition_sizes := partition_sizes }

/-- The `(i, start, end)` triples computed by `write_partition_file`, one per
`i in range(1, partitions + 1)`. -/
def write_partition_file_entries (sites partitions : Nat) :
    List (Nat × Nat × Nat) :=
  let partition_sizes := sites / partitions
  (List.range partitions).map (fun j =>
    let i := j + 1
    let start := (i - 1) * partition_sizes + 1
    let stop := start + partition_sizes - 1
    (i, start, stop))

/-- The lines written by `write_partition_file`:
`DNA, part{i} = {start}-{end}` for each entry. -/
def write_partition_file (sites partitions : Nat) : List String :=
  (write_partition_file_entries sites partitions).map (fun e =>
    "DNA, part" ++ toString e.1 ++ " = " ++ toString e.2.1 ++ "-"
      ++ toString e.2.2)

/-- Python's ASCII whitespace set, as stripped by `str.strip()`. -/
def isPyWhitespace (c : Char) : Bool :=
  c = ' ' || c = '\t' || c = '\n' || c = '\x0d' || c = '\x0b' || c = '\x0c'

/-- Python `line.strip()`: remove leading and trailing whitespace. -/
def pyStrip (s : List Char) : List Char :=
  ((s.dropWhile isPyWhitespace).reverse.dropWhile isPyWhitespace).reverse

/-- Python `s.split(sep)` for a one-character separator `sep`: split at every
occurrence, keeping empty fields; the result is never the empty list. -/
def splitOnChar (sep : Char) : List Char → List (List Char)
  | [] => [[]]
  | c :: cs =>
    match splitOnChar sep cs with
    | [] => [[]]
    | w :: ws => if c = sep then [] :: w :: ws else (c :: w) :: ws

/-- Python `pat in s` (substring containment) on strings. -/
def containsSub (pat : List Char) : List Char → Bool
  | [] => pat.isPrefixOf []
  | c :: cs => pat.isPrefixOf (c :: cs) || containsSub pat cs

/-- `extract_newick_trees`, on the list of lines of the input file: for each
line, `parts = line.strip().split("\t")`; if `len(parts) > 7` and the last
field (`parts[-1]`) contains `"("` and `");"`, collect the last field. -/
def extract_newick_trees (lines : List (List Char)) : List (List Char) :=
  lines.foldl (fun newick_trees line =>
    let parts := splitOnChar '\t' (pyStrip line)
    if parts.length > 7 && containsSub ['('] (parts.getLastD [])
        && containsSub [')', ';'] (parts.getLastD []) then
      newick_trees ++ [parts.getLastD []]
    else newick_trees) []

/-- The content written (unconditionally) to the output file by
`extract_newick_trees`: every collected tree followed by a newline.  The
output file is opened for writing in every case, so zero collected trees
yield an (existing) empty file, modelled as the empty content. -/
def extract_newick_trees_output (lines : List (List Char)) : List Char :=
  (extract_newick_trees lines).flatMap (fun tree => tree ++ ['\n'])

/-! ### Helper lemmas -/

/-- A list is the map of `getD` over the range of its length. -/
theorem self_eq_map_range_getD {α : Type} (l : List α) (d : α) :
    (List.range l.length).map (fun i => l.getD i d) = l := by
  induction l with
  | nil => rfl
  | cons x xs ih =>
    simp only [List.length_cons, List.range_succ_eq_map, List.map_cons,
      List.map_map]
    exact congrArg (x :: ·) ih

/-- Running the column-extraction loop from any well-sized accumulator
appends, at each column index, the symbols of the processed sequences. -/
theorem foldl_buildColumnsStep (L : Nat) (seqs : List (List Char)) :
    ∀ cols : List (List Char), cols.length = L →
      seqs.foldl (buildColumnsStep L) cols
        = (List.range L).map
            (fun i => cols.getD i [] ++ seqs.map (fun s => s.getD i ' ')) := by
  induction seqs with
  | nil =>
    intro cols hc
    simp only [List.foldl_nil, List.map_nil, List.append_nil]
    subst hc
    exact (self_eq_map_range_getD cols []).symm
  | cons seq rest ih =>
    intro cols hc
    have hlen : (buildColumnsStep L cols seq).length = L := by
      simp [buildColumnsStep]
    rw [List.foldl_cons, ih _ hlen]
    apply List.map_congr_left
    intro i hi
    have hiL : i < L := List.mem_range.mp hi
    have hstep : (buildColumnsStep L cols seq).getD i []
        = cols.getD i [] ++ [seq.getD i ' '] := by
      rw [List.getD_eq_getElem _ _ (by simpa [buildColumnsStep] using hiL)]
      simp [buildColumnsStep]
    rw [hstep]
    simp [List.append_assoc]

/-- The imperative column-building loop computes, for each `i < L`, the list
of `i`-th symbols of the sequences in input order. -/
theorem buildColumns_eq (L : Nat) (seqs : List (List Char)) :
    buildColumns L seqs
      = (List.range L).map (fun i => seqs.map (fun s => s.getD i ' ')) := by
  rw [buildColumns, foldl_buildColumnsStep L seqs _ (List.length_replicate _ _)]
  apply List.map_congr_left
  intro i hi
  have hiL : i < L := List.mem_range.mp hi
  rw [List.getD_eq_getElem _ _ (by simpa using hiL)]
  simp

/-- The two readers have literally the same analysis body. -/
theorem read_fasta_eq_read_phylip_aux (sequences : List (List Char)) :
    read_fasta sequences = read_phylip sequences := rfl

/-- Success-case normal form of `read_phylip`. -/
theorem read_phylip_success (seqs : List (List Char)) (L : Nat)
    (hne : seqs ≠ []) (hlen : ∀ s ∈ seqs, s.length = L) :
    read_phylip seqs
      = (((List.range L).map
            (fun i => seqs.map (fun s => s.getD i ' '))).dedup.length,
         seqs.dedup.length) := by
  obtain ⟨x, xs, rfl⟩ := List.exists_cons_of_ne_nil hne
  have hx : x.length = L := hlen x (List.mem_cons_self x xs)
  have hany : (x :: xs).any (fun seq => seq.length != x.length) = false := by
    simp only [List.any_eq_false]
    intro s hs
    simp [hlen s hs, hx]
  rw [read_phylip]
  simp only [List.length_cons, List.headD_cons]
  rw [if_neg (by simp), if_neg (by simp [hany])]
  rw [buildColumns_eq, hx]

/-- A conditional-collect fold is a `filterMap`. -/
theorem foldl_collect_eq_filterMap {α β : Type} (p : α → Bool) (f : α → β) :
    ∀ (l : List α) (acc : List β),
      l.foldl (fun a x => if p x then a ++ [f x] else a) acc
        = acc ++ l.filterMap (fun x => if p x then some (f x) else none) := by
  intro l
  induction l with
  | nil => intro acc; simp
  | cons x xs ih =>
    intro acc
    cases hp : p x <;>
      simp [List.foldl_cons, List.filterMap_cons, hp, ih, List.append_assoc]

/-- `extract_newick_trees` as a `filterMap` over the input lines. -/
theorem extract_newick_trees_eq_filterMap (lines : List (List Char)) :
    extract_newick_trees lines
      = lines.filterMap (fun line =>
          let parts := splitOnChar '\t' (pyStrip line)
          if parts.length > 7 && containsSub ['('] (parts.getLastD [])
              && containsSub [')', ';'] (parts.getLastD []) then
            some (parts.getLastD [])
          else none) := by
  rw [extract_newick_trees]
  exact foldl_collect_eq_filterMap
    (fun line =>
      let parts := splitOnChar '\t' (pyStrip line)
      decide (parts.length > 7) && containsSub ['('] (parts.getLastD [])
        && containsSub [')', ';'] (parts.getLastD []))
    (fun line => (splitOnChar '\t' (pyStrip line)).getLastD []) lines []

/-- Two maps over one list have equal deduplicated lengths when the two
functions induce the same equalities on the list's elements. -/
theorem dedup_length_map_congr {α β γ : Type} [DecidableEq β] [DecidableEq γ]
    (s : List α) (F : α → β) (G : α → γ)
    (h : ∀ x ∈ s, ∀ y ∈ s, (F x = F y ↔ G x = G y)) :
    (s.map F).dedup.length = (s.map G).dedup.length := by
  induction s with
  | nil => rfl
  | cons a t ih =>
    have ht : ∀ x ∈ t, ∀ y ∈ t, (F x = F y ↔ G x = G y) := by
      intro x hx y hy
      exact h x (List.mem_cons_of_mem a hx) y (List.mem_cons_of_mem a hy)
    have hmem : F a ∈ t.map F ↔ G a ∈ t.map G := by
      simp only [List.mem_map]
      constructor
      · rintro ⟨x, hx, hFx⟩
        exact ⟨x, hx, (h x (List.mem_cons_of_mem a hx) a
          (List.mem_cons_self a t)).mp hFx⟩
      · rintro ⟨x, hx, hGx⟩
        exact ⟨x, hx, (h x (List.mem_cons_of_mem a hx) a
          (List.mem_cons_self a t)).mpr hGx⟩
    by_cases hF : F a ∈ t.map F
    · rw [List.map_cons, List.map_cons, List.dedup_cons_of_mem hF,
        List.dedup_cons_of_mem (hmem.mp hF)]
      exact ih ht
    · rw [List.map_cons, List.map_cons, List.dedup_cons_of_not_mem hF,
        List.dedup_cons_of_not_mem (fun hG => hF (hmem.mpr hG)),
        List.length_cons, List.length_cons]
      exact congrArg Nat.succ (ih ht)

/-- Under a permutation of a list, `map f = map g` holds on one side exactly
when it holds on the other. -/
theorem perm_map_eq_iff {α β : Type} {l₁ l₂ : List α} (h : l₁.Perm l₂)
    (f g : α → β) : (l₁.map f = l₁.map g) ↔ (l₂.map f = l₂.map g) := by
  induction h with
  | nil => exact Iff.rfl
  | cons x _ ih => simp only [List.map_cons, List.cons_eq_cons]; rw [ih]
  | swap x y t =>
    simp only [List.map_cons, List.cons_eq_cons]
    constructor
    · rintro ⟨h1, h2, h3⟩; exact ⟨h2, h1, h3⟩
    · rintro ⟨h1, h2, h3⟩; exact ⟨h2, h1, h3⟩
  | trans _ _ ih1 ih2 => exact ih1.trans ih2

/-! ### Claim theorems -/

/-- C1 (counterexample): on the alignment `["ACGT", "ACGA", "ACGT"]` the
Alignment Analyzer does not return a pattern count of 2: the four columns
`(A,A,A)`, `(C,C,C)`, `(G,G,G)`, `(T,A,T)` are pairwise distinct. -/
theorem read_phylip_acgt_example_ne_two :
    read_phylip [['A','C','G','T'], ['A','C','G','A'], ['A','C','G','T']]
      ≠ (2, 2) := by decide

/-- C1 (amended): on the alignment `["ACGT", "ACGA", "ACGT"]` both readers
return a pattern count of 4 (all four column tuples are distinct) and a
distinct-sequence count of 2. -/
theorem read_phylip_acgt_example_counts :
    read_fasta [['A','C','G','T'], ['A','C','G','A'], ['A','C','G','T']]
        = (4, 2)
    ∧ read_phylip [['A','C','G','T'], ['A','C','G','A'], ['A','C','G','T']]
        = (4, 2) := by decide

/-- C2: on every non-empty list of equal-length sequences, both readers
return the pair (number of distinct column tuples of the transposed
alignment, number of distinct full sequences), where column `i` is the
ordered tuple of `i`-th symbols in input order. -/
theorem analyzer_eq_spec_on_success (seqs : List (List Char))
    (hne : seqs ≠ []) (hlen : ∀ s ∈ seqs, ∀ t ∈ seqs, s.length = t.length) :
    read_phylip seqs = alignmentAnalyzerSpec seqs
    ∧ read_fasta seqs = alignmentAnalyzerSpec seqs := by
  have hhead : seqs.headD [] ∈ seqs := by
    obtain ⟨x, xs, rfl⟩ := List.exists_cons_of_ne_nil hne
    exact List.mem_cons_self x xs
  have hL : ∀ s ∈ seqs, s.length = (seqs.headD []).length :=
    fun s hs => hlen s hs _ hhead
  have h1 := read_phylip_success seqs (seqs.headD []).length hne hL
  exact ⟨h1, (read_fasta_eq_read_phylip_aux seqs).trans h1⟩

/-- C2 witness: the equivalence evaluated on a concrete alignment. -/
theorem analyzer_eq_spec_on_success_witness :
    read_phylip [['A','B'], ['B','B']]
        = alignmentAnalyzerSpec [['A','B'], ['B','B']]
    ∧ read_fasta [['A','B'], ['B','B']]
        = alignmentAnalyzerSpec [['A','B'], ['B','B']] :=
  analyzer_eq_spec_on_success [['A','B'], ['B','B']] (by decide) (by decide)

/-- C3: with zero parsed records, or with two parsed sequences of different
lengths, both readers return `(0, 0)`; the embedded analyzers are total
functions, so no exception is possible on this path. -/
theorem analyzer_returns_zero_on_degenerate (seqs : List (List Char))
    (h : seqs.length = 0
      ∨ ∃ s₁ ∈ seqs, ∃ s₂ ∈ seqs, s₁.length ≠ s₂.length) :
    read_fasta seqs = (0, 0) ∧ read_phylip seqs = (0, 0) := by
  have hp : read_phylip seqs = (0, 0) := by
    rcases h with h0 | ⟨s₁, h₁, s₂, h₂, hne⟩
    · rw [List.length_eq_zero] at h0
      subst h0
      rfl
    · have hnil : seqs ≠ [] := fun hc => by simp [hc] at h₁
      obtain ⟨x, xs, rfl⟩ := List.exists_cons_of_ne_nil hnil
      have hwit : ∃ s ∈ x :: xs, s.length ≠ x.length := by
        by_cases hs₁ : s₁.length = x.length
        · exact ⟨s₂, h₂, fun hc => hne (hs₁.trans hc.symm)⟩
        · exact ⟨s₁, h₁, hs₁⟩
      have hany : (x :: xs).any (fun seq => seq.length != x.length) = true := by
        obtain ⟨s, hs, hsl⟩ := hwit
        exact List.any_eq_true.mpr ⟨s, hs, bne_iff_ne.mpr hsl⟩
      rw [read_phylip]
      simp only [List.headD_cons]
      rw [if_neg (by simp), if_pos (by simp [hany])]
  exact ⟨(read_fasta_eq_read_phylip_aux seqs).trans hp, hp⟩

/-- C3 witness: a two-record alignment with lengths 1 and 2. -/
theorem analyzer_returns_zero_on_degenerate_witness :
    read_fasta [['A'], ['B', 'C']] = (0, 0)
    ∧ read_phylip [['A'], ['B', 'C']] = (0, 0) :=
  analyzer_returns_zero_on_degenerate [['A'], ['B', 'C']] (by decide)

/-- C7: after normalization to a list of parsed sequence strings, the FASTA
reader and the PHYLIP reader compute identical results on every input. -/
theorem read_fasta_read_phylip_equivalent (sequences : List (List Char)) :
    read_fasta sequences = read_phylip sequences :=
  read_fasta_eq_read_phylip_aux sequences

/-- C4: with `size = sites / partitions`, line `j` (0-based) of the partition
file is `DNA, part(j+1) = (j*size+1)-((j+1)*size)`, and for 300 sites in 3
partitions the file is exactly the three documented lines. -/
theorem write_partition_file_correct (sites partitions : Nat)
    (hpos : 0 < partitions) :
    (∀ j, j < partitions →
      (write_partition_file sites partitions).getD j ""
        = "DNA, part" ++ toString (j + 1) ++ " = "
            ++ toString (j * (sites / partitions) + 1) ++ "-"
            ++ toString ((j + 1) * (sites / partitions)))
    ∧ write_partition_file 300 3
        = ["DNA, part1 = 1-100", "DNA, part2 = 101-200",
           "DNA, part3 = 201-300"] := by
  constructor
  · intro j hj
    rw [write_partition_file, write_partition_file_entries]
    simp only [List.map_map]
    rw [List.getD_eq_getElem _ _ (by simpa using hj)]
    simp only [List.getElem_map, List.getElem_range, Function.comp_apply]
    have h2 : j * (sites / partitions) + 1 + (sites / partitions) - 1
        = (j + 1) * (sites / partitions) := by
      rw [Nat.add_right_comm, Nat.add_sub_cancel, Nat.succ_mul]
    simp only [Nat.add_sub_cancel, h2]
  · decide

/-- C4 witness: the partition file for 300 sites and 3 partitions. -/
theorem write_partition_file_correct_witness :
    write_partition_file 300 3
      = ["DNA, part1 = 1-100", "DNA, part2 = 101-200",
         "DNA, part3 = 201-300"] :=
  (write_partition_file_correct 300 3 (by decide)).2

/-- C5: the per-partition size returned by `generate_control_file` equals
`sites / partitions`, and every range `(i, start, stop)` produced by
`write_partition_file` has width `stop + 1 - start` equal to that same
size. -/
theorem partition_size_consistent (sites taxa partitions : Nat)
    (output_name : String) (hpos : 0 < partitions) :
    (generate_control_file sites taxa partitions output_name).partition_sizes
        = sites / partitions
    ∧ ∀ e ∈ write_partition_file_entries sites partitions,
        e.2.2 + 1 - e.2.1
          = (generate_control_file sites taxa partitions
              output_name).partition_sizes := by
  refine ⟨rfl, ?_⟩
  intro e he
  rw [write_partition_file_entries] at he
  simp only [List.mem_map, List.mem_range] at he
  obtain ⟨j, hj, rfl⟩ := he
  show j * (sites / partitions) + 1 + (sites / partitions) - 1 + 1
      - (j * (sites / partitions) + 1) = sites / partitions
  generalize sites / partitions = s
  generalize j * s = m
  omega

/-- C5 witness: the two sizes agree for 300 sites and 3 partitions. -/
theorem partition_size_consistent_witness :
    (generate_control_file 300 5 3 "test").partition_sizes = 300 / 3 :=
  (partition_size_consistent 300 5 3 "test" (by decide)).1

/-- C6: a line's last tab-separated field is collected exactly when the
stripped line splits into more than 7 fields and the last field contains
both `"("` and `");"`; in particular an 8-field line ending in `(A,B);` is
extracted, a 5-field line is not, and an 8-field line whose last field lacks
`);` is not. -/
theorem extract_newick_trees_characterization :
    (∀ lines : List (List Char),
      extract_newick_trees lines
        = lines.filterMap (fun line =>
            let parts := splitOnChar '\t' (pyStrip line)
            if parts.length > 7
                ∧ containsSub ['('] (parts.getLastD []) = true
                ∧ containsSub [')', ';'] (parts.getLastD []) = true then
              some (parts.getLastD [])
            else none))
    ∧ extract_newick_trees ["a\tb\tc\td\te\tf\tg\t(A,B);".data]
        = ["(A,B);".data]
    ∧ extract_newick_trees ["a\tb\tc\td\t(A,B);".data] = []
    ∧ extract_newick_trees ["a\tb\tc\td\te\tf\tg\t(A,B".data] = [] := by
  refine ⟨?_, by decide, by decide, by decide⟩
  intro lines
  rw [extract_newick_trees_eq_filterMap]
  congr 1
  funext line
  by_cases h7 : (splitOnChar '\t' (pyStrip line)).length > 7 <;>
    by_cases hp : containsSub ['(']
        ((splitOnChar '\t' (pyStrip line)).getLastD []) = true <;>
    by_cases hs : containsSub [')', ';']
        ((splitOnChar '\t' (pyStrip line)).getLastD []) = true <;>
    simp [h7, hp, hs]

/-- C8: on a non-empty alignment of `n` sequences sharing a length `L ≥ 1`,
both counts are bounded: `1 ≤ patterns ≤ L` and `1 ≤ distinct ≤ n`. -/
theorem analyzer_counts_bounded (seqs : List (List Char)) (L : Nat)
    (hne : seqs ≠ []) (hlen : ∀ s ∈ seqs, s.length = L) (hL : 1 ≤ L) :
    (1 ≤ (read_phylip seqs).1 ∧ (read_phylip seqs).1 ≤ L
      ∧ 1 ≤ (read_phylip seqs).2 ∧ (read_phylip seqs).2 ≤ seqs.length)
    ∧ (1 ≤ (read_fasta seqs).1 ∧ (read_fasta seqs).1 ≤ L
      ∧ 1 ≤ (read_fasta seqs).2 ∧ (read_fasta seqs).2 ≤ seqs.length) := by
  have key : 1 ≤ (read_phylip seqs).1 ∧ (read_phylip seqs).1 ≤ L
      ∧ 1 ≤ (read_phylip seqs).2 ∧ (read_phylip seqs).2 ≤ seqs.length := by
    rw [read_phylip_success seqs L hne hlen]
    refine ⟨?_, ?_, ?_, ?_⟩
    · have hcols : (List.range L).map
          (fun i => seqs.map (fun s => s.getD i ' ')) ≠ [] := by
        simp [List.range_eq_nil]
        omega
      have := List.length_pos.mpr
        (fun h => hcols ((List.dedup_eq_nil _).mp h))
      omega
    · calc ((List.range L).map
            (fun i => seqs.map (fun s => s.getD i ' '))).dedup.length
          ≤ ((List.range L).map
            (fun i => seqs.map (fun s => s.getD i ' '))).length :=
            (List.dedup_sublist _).length_le
        _ = L := by simp
    · have := List.length_pos.mpr
        (fun h => hne ((List.dedup_eq_nil _).mp h))
      omega
    · exact (List.dedup_sublist _).length_le
  exact ⟨key, by rw [read_fasta_eq_read_phylip_aux]; exact key⟩

/-- C8 witness: the bounds on the single-record alignment `["A"]`. -/
theorem analyzer_counts_bounded_witness :
    (1 ≤ (read_phylip [['A']]).1 ∧ (read_phylip [['A']]).1 ≤ 1
      ∧ 1 ≤ (read_phylip [['A']]).2
      ∧ (read_phylip [['A']]).2 ≤ ([['A']] : List (List Char)).length)
    ∧ (1 ≤ (read_fasta [['A']]).1 ∧ (read_fasta [['A']]).1 ≤ 1
      ∧ 1 ≤ (read_fasta [['A']]).2
      ∧ (read_fasta [['A']]).2 ≤ ([['A']] : List (List Char)).length) :=
  analyzer_counts_bounded [['A']] 1 (by decide) (by decide) (by decide)

/-- C9: the analysis is invariant under any permutation of the input
records: each column tuple is reordered by the same permutation, which is
injective on tuples, and sequence deduplication is permutation-stable. -/
theorem analyzer_perm_invariant (l₁ l₂ : List (List Char)) (L : Nat)
    (hlen : ∀ s ∈ l₁, s.length = L) (hperm : l₁.Perm l₂) :
    read_phylip l₁ = read_phylip l₂ := by
  rcases eq_or_ne l₁ [] with rfl | hne
  · rw [hperm.symm.eq_nil]
  · have hne₂ : l₂ ≠ [] := fun hc => hne ((hc ▸ hperm).eq_nil)
    have hlen₂ : ∀ s ∈ l₂, s.length = L :=
      fun s hs => hlen s (hperm.mem_iff.mpr hs)
    rw [read_phylip_success l₁ L hne hlen, read_phylip_success l₂ L hne₂ hlen₂]
    rw [Prod.mk.injEq]
    constructor
    · exact dedup_length_map_congr (List.range L)
        (fun i => l₁.map (fun s => s.getD i ' '))
        (fun i => l₂.map (fun s => s.getD i ' '))
        (fun i _ j _ => perm_map_eq_iff hperm _ _)
    · exact hperm.dedup.length_eq

/-- C9 witness: swapping the two records of `["A", "B"]`. -/
theorem analyzer_perm_invariant_witness :
    read_phylip [['A'], ['B']] = read_phylip [['B'], ['A']] :=
  analyzer_perm_invariant [['A'], ['B']] [['B'], ['A']] 1 (by decide)
    (by decide)

/-- C10: extraction distributes over concatenation of the input lines (so
collected trees keep input order), and the output content is written in
every case: with zero matching lines it is the empty content of a still
written file. -/
theorem extract_newick_trees_order_and_output
    (l₁ l₂ lines : List (List Char)) :
    extract_newick_trees (l₁ ++ l₂)
        = extract_newick_trees l₁ ++ extract_newick_trees l₂
    ∧ (extract_newick_trees lines = []
        → extract_newick_trees_output lines = []) := by
  constructor
  · simp only [extract_newick_trees_eq_filterMap]
    exact List.filterMap_append _ _ _
  · intro h
    rw [extract_newick_trees_output, h]
    rfl

/-- C10 witness: concatenation of two one-line inputs, and the empty output
content for a non-matching input line. -/
theorem extract_newick_trees_order_and_output_witness :
    extract_newick_trees (["ab".data] ++ ["cd".data])
        = extract_newick_trees ["ab".data] ++ extract_newick_trees ["cd".data]
    ∧ extract_newick_trees_output ["ab".data] = [] :=
  ⟨(extract_newick_trees_order_and_output ["ab".data] ["cd".data]
      ["ab".data]).1,
   (extract_newick_trees_order_and_output ["ab".data] ["cd".data]
      ["ab".data]).2 (by decide)⟩

end ExaML
